import Mathlib

/-!
Shallow embedding of the availability engine of api/services/BookingService.js:
the functions getAvailabilityPeriods (range mode) and getAvailabilityDates
(date mode).

Modelling conventions:
- Instants (ISO date strings in the source) are integers, milliseconds since
  the epoch.  Well-formed UTC ISO strings compare lexicographically exactly as
  their timestamps compare, so the sort by the date field is faithful, and the
  moment subtraction of one calendar day on a UTC instant is subtraction of
  oneDay milliseconds.
- Lodash sortBy is a stable sort on the iteratee; sortListBy below is a stable
  insertion sort by an integer key (an element is inserted before the first
  element of greater or equal key of the already sorted suffix it is inserted
  into, which preserves the relative input order of equal keys).
- The JS plain object used as a dictionary in getAvailabilityDates preserves
  insertion order for its (non-numeric) string keys; it is modelled as an
  association list with get-or-create-at-end update.
- Optional arguments (newBooking, maxQuantity) become Option; the JS guard
  typeof maxQuantity === 'number' is the some case.
- The newPeriod tag keeps its source values, the strings "start" and "end".
-/

namespace BookingAvailability

/-- One calendar day in milliseconds, the amount moment subtracts from a UTC
instant for the anchor point. -/
def oneDay : Int := 86400000

/-- A future booking in range mode: startDate, endDate, quantity. -/
structure Booking where
  startDate : Int
  endDate : Int
  quantity : Int
  deriving DecidableEq

/-- An owner availability declaration in range mode: startDate, endDate,
available flag and quantity. -/
structure ListingAvailability where
  startDate : Int
  endDate : Int
  available : Bool
  quantity : Int
  deriving DecidableEq

/-- An owner declaration with available set, over the window from s to e with
quantity q: the shape used by the two-run comparison statements. -/
def mkAvailTrue (s e q : Int) : ListingAvailability :=
  { startDate := s, endDate := e, available := true, quantity := q }

/-- The candidate reservation in range mode. -/
structure NewBooking where
  startDate : Int
  endDate : Int
  quantity : Int
  deriving DecidableEq

/-- One element of the dateSteps array of getAvailabilityPeriods: a date, a
signed delta, and the optional candidate boundary tag. -/
structure Step where
  date : Int
  delta : Int
  newPeriod : Option String
  deriving DecidableEq

/-- One element of the availablePeriods output: a date, the accumulated
quantity, and the optional candidate boundary tag. -/
structure PeriodEntry where
  date : Int
  quantity : Int
  newPeriod : Option String
  deriving DecidableEq

/-- The result of getAvailabilityPeriods. -/
structure PeriodsResult where
  isAvailable : Bool
  availablePeriods : List PeriodEntry
  deriving DecidableEq

/-- The two dateSteps pushed for a future booking: plus quantity at its start,
minus quantity at its end (source lines 459-469). -/
def bookingSteps (b : Booking) : List Step :=
  [ { date := b.startDate, delta := b.quantity, newPeriod := none },
    { date := b.endDate, delta := -b.quantity, newPeriod := none } ]

/-- The two dateSteps pushed for an availability declaration: the start sign is
-1 when available (one extra place) and 1 otherwise, the end sign is its
negation (source lines 471-484). -/
def availabilitySteps (la : ListingAvailability) : List Step :=
  let startSign : Int := if la.available then -1 else 1
  let endSign : Int := -1 * startSign
  [ { date := la.startDate, delta := startSign * la.quantity, newPeriod := none },
    { date := la.endDate, delta := endSign * la.quantity, newPeriod := none } ]

/-- The two tagged dateSteps pushed for the candidate reservation when present
(source lines 486-498). -/
def newBookingSteps : Option NewBooking → List Step
  | none => []
  | some nb =>
    [ { date := nb.startDate, delta := nb.quantity, newPeriod := some "start" },
      { date := nb.endDate, delta := -nb.quantity, newPeriod := some "end" } ]

/-- All steps pushed for the future bookings, in input order. -/
def stepsOfBookings : List Booking → List Step
  | [] => []
  | b :: l => bookingSteps b ++ stepsOfBookings l

/-- All steps pushed for the availability declarations, in input order. -/
def stepsOfAvailabilities : List ListingAvailability → List Step
  | [] => []
  | la :: l => availabilitySteps la ++ stepsOfAvailabilities l

/-- The full dateSteps array of getAvailabilityPeriods, in push order: booking
steps, then declaration steps, then the candidate steps. -/
def buildDateSteps (futureBookings : List Booking)
    (listingAvailabilities : List ListingAvailability)
    (newBooking : Option NewBooking) : List Step :=
  stepsOfBookings futureBookings ++ stepsOfAvailabilities listingAvailabilities
    ++ newBookingSteps newBooking

/-- Stable insertion of x into a list sorted by key: x goes before the first
element whose key is at least the key of x. -/
def insertSortedBy {α : Type} (key : α → Int) (x : α) : List α → List α
  | [] => [x]
  | y :: l => if key x ≤ key y then x :: y :: l else y :: insertSortedBy key x l

/-- Stable sort by an integer key, modelling lodash sortBy. -/
def sortListBy {α : Type} (key : α → Int) : List α → List α
  | [] => []
  | x :: l => insertSortedBy key x (sortListBy key l)

/-- The condition under which the sweep loop lowers the latch: a candidate is
present, maxQuantity is a number, and the running quantity exceeds it
(source line 516). -/
def breachCond (hasNew : Bool) (maxQ : Option Int) (q : Int) : Bool :=
  hasNew && (match maxQ with | some m => decide (m < q) | none => false)

/-- One update of the isAvailable latch (source lines 516-518). -/
def availStep (hasNew : Bool) (maxQ : Option Int) (q : Int) (a : Bool) : Bool :=
  if a && breachCond hasNew maxQ q then false else a

/-- The sweep loop of getAvailabilityPeriods (source lines 508-530) after its
first iteration: q is the running quantity, a the latch, curr the entry the
source calls oldStep (pushed to the output but still mutable).  A step sharing
the date of curr only overwrites the quantity of curr; a step with a new date
finalizes curr and opens a fresh entry carrying the date, post-delta quantity
and tag of that step. -/
def sweepGo (hasNew : Bool) (maxQ : Option Int) :
    List Step → Int → Bool → PeriodEntry → List PeriodEntry × Bool
  | [], _, a, curr => ([curr], a)
  | step :: rest, q, a, curr =>
    let q2 := q + step.delta
    let a2 := availStep hasNew maxQ q2 a
    if step.date = curr.date then
      sweepGo hasNew maxQ rest q2 a2 { curr with quantity := q2 }
    else
      let r := sweepGo hasNew maxQ rest q2 a2
        { date := step.date, quantity := q2, newPeriod := step.newPeriod }
      (curr :: r.1, r.2)

/-- The whole sweep loop of getAvailabilityPeriods over the sorted steps,
starting from running quantity 0 and a raised latch; returns the coalesced
entries and the latch. -/
def sweepPeriods (hasNew : Bool) (maxQ : Option Int) :
    List Step → List PeriodEntry × Bool
  | [] => ([], true)
  | step :: rest =>
    sweepGo hasNew maxQ rest step.delta (availStep hasNew maxQ step.delta true)
      { date := step.date, quantity := step.delta, newPeriod := step.newPeriod }

/-- getAvailabilityPeriods (source lines 456-544): build the steps, sort them
stably by date, sweep, and prepend the anchor point one day before the first
entry when the timeline is non-empty. -/
def getAvailabilityPeriods (futureBookings : List Booking)
    (listingAvailabilities : List ListingAvailability)
    (newBooking : Option NewBooking) (maxQuantity : Option Int) : PeriodsResult :=
  let sortedSteps := sortListBy (fun s => s.date)
    (buildDateSteps futureBookings listingAvailabilities newBooking)
  let r := sweepPeriods newBooking.isSome maxQuantity sortedSteps
  let availablePeriods :=
    match r.1 with
    | [] => ([] : List PeriodEntry)
    | first :: rest =>
      { date := first.date - oneDay, quantity := 0, newPeriod := none }
        :: first :: rest
  { isAvailable := r.2, availablePeriods := availablePeriods }

/-- A future booking in date mode: a single date and a quantity. -/
structure DateBooking where
  startDate : Int
  quantity : Int
  deriving DecidableEq

/-- An owner availability declaration in date mode. -/
structure DateListingAvailability where
  startDate : Int
  available : Bool
  quantity : Int
  deriving DecidableEq

/-- The candidate reservation in date mode. -/
structure DateNewBooking where
  startDate : Int
  quantity : Int
  deriving DecidableEq

/-- One bucket of the dateSteps dictionary of getAvailabilityDates, and one
element of the availableDates output. -/
structure DateEntry where
  date : Int
  quantity : Int
  selected : Bool
  deriving DecidableEq

/-- The exposed view of a declaration: startDate and quantity only
(source lines 598-600). -/
structure ExposedAvailability where
  startDate : Int
  quantity : Int
  deriving DecidableEq

/-- The result of getAvailabilityDates. -/
structure DatesResult where
  isAvailable : Bool
  listingAvailabilities : List ExposedAvailability
  availableDates : List DateEntry
  deriving DecidableEq

/-- Get-or-create bucket update of the dateSteps dictionary: add q to the
bucket of date d, creating it at the end (JS object key insertion order) when
absent (source lines 569-580). -/
def bumpBucket (d : Int) (q : Int) : List DateEntry → List DateEntry
  | [] => [{ date := d, quantity := q, selected := false }]
  | e :: rest =>
    if e.date = d then { e with quantity := e.quantity + q } :: rest
    else e :: bumpBucket d q rest

/-- Mark the bucket of date d as selected (source line 593). -/
def selectBucket (d : Int) : List DateEntry → List DateEntry
  | [] => []
  | e :: rest =>
    if e.date = d then { e with selected := true } :: rest
    else e :: selectBucket d rest

/-- The quantity of the bucket of date d, 0 when absent (the source reads
dateSteps at that key). -/
def lookupQ (buckets : List DateEntry) (d : Int) : Int :=
  (((buckets.find? (fun e => e.date = d)).map (fun e => e.quantity))).getD 0

/-- Lodash indexBy keyed by startDate followed by a key lookup: the last
declaration of the list carrying that startDate, since later assignments to
the same key overwrite earlier ones (source lines 602-611). -/
def lastWithStartDate (las : List DateListingAvailability) (d : Int) :
    Option DateListingAvailability :=
  (las.filter (fun la => la.startDate = d)).getLast?

/-- The bucketing loop over the future bookings of getAvailabilityDates
(source lines 569-580), starting from the empty dictionary. -/
def buildBuckets (fb : List DateBooking) : List DateEntry :=
  fb.foldl (fun acc b => bumpBucket b.startDate b.quantity acc) []

/-- The candidate handling of getAvailabilityDates (source lines 582-594): add
the candidate quantity to its bucket and mark that bucket selected. -/
def applyCandidate (nb : Option DateNewBooking) (buckets : List DateEntry) :
    List DateEntry :=
  match nb with
  | some n => selectBucket n.startDate (bumpBucket n.startDate n.quantity buckets)
  | none => buckets

/-- getAvailabilityDates (source lines 566-623): bucket the bookings by date,
add the candidate to its bucket and mark it selected, sort the buckets by
date, expose the declarations as startDate and quantity pairs, resolve the
effective ceiling (the declared quantity at the candidate date when such a
declaration exists, the global maxQuantity otherwise, and only when a
candidate and a numeric maxQuantity are present), and compare the candidate
bucket against it. -/
def getAvailabilityDates (futureBookings : List DateBooking)
    (listingAvailabilities : List DateListingAvailability)
    (newBooking : Option DateNewBooking) (maxQuantity : Option Int) : DatesResult :=
  let buckets := applyCandidate newBooking (buildBuckets futureBookings)
  let availableDates := sortListBy (fun e => e.date) buckets
  let exposed := listingAvailabilities.map
    (fun la => ({ startDate := la.startDate, quantity := la.quantity } : ExposedAvailability))
  let currentMaxQuantity : Option Int :=
    match newBooking, maxQuantity with
    | some nb, some m =>
      match lastWithStartDate listingAvailabilities nb.startDate with
      | some la => some la.quantity
      | none => some m
    | _, _ => none
  let isAvailable : Bool :=
    match newBooking, currentMaxQuantity with
    | some nb, some cm => decide (lookupQ buckets nb.startDate ≤ cm)
    | _, _ => true
  { isAvailable := isAvailable, listingAvailabilities := exposed,
    availableDates := availableDates }

/-- The sum of the deltas of the steps dated at or before t: the running
quantity of the sweep once every step dated at or before t has been applied. -/
def sumDeltasLE (l : List Step) (t : Int) : Int :=
  ((l.filter (fun s => decide (s.date ≤ t))).map (fun s => s.delta)).sum

/-- The sum of the deltas of the first n steps of a list: the running quantity
of the sweep right after its n-th iteration. -/
def sumDeltasTake (l : List Step) (n : Nat) : Int :=
  ((l.take n).map (fun s => s.delta)).sum

/-- The latch value computed by the sweep from running quantity q over the
remaining steps: true iff no post-delta running total trips the breach
condition. -/
def noBreachList (hasNew : Bool) (maxQ : Option Int) : List Step → Int → Bool
  | [], _ => true
  | s :: l, q =>
    !(breachCond hasNew maxQ (q + s.delta)) && noBreachList hasNew maxQ l (q + s.delta)

/-- Collapse adjacent duplicates of a list of integers: the distinct dates of
a date-sorted step list, in order. -/
def dedupAdj : List Int → List Int
  | [] => []
  | [x] => [x]
  | x :: y :: l => if x = y then dedupAdj (y :: l) else x :: dedupAdj (y :: l)

/-- The total quantity booked at exactly date d by a list of date-mode
bookings. -/
def dateQuantityTotal (fb : List DateBooking) (d : Int) : Int :=
  ((fb.filter (fun b => b.startDate = d)).map (fun b => b.quantity)).sum

/-- The contribution of the optional candidate to the bucket of date d. -/
def candContrib (nb : Option DateNewBooking) (d : Int) : Int :=
  match nb with
  | some n => if n.startDate = d then n.quantity else 0
  | none => 0

/-- The date order used throughout: a step precedes another when its date is
at most the date of the other. -/
def stepLE (s t : Step) : Prop := s.date ≤ t.date

theorem insertSortedBy_perm {α : Type} (key : α → Int) (x : α) :
    ∀ l : List α, List.Perm (insertSortedBy key x l) (x :: l)
  | [] => by simp [insertSortedBy]
  | y :: l => by
    by_cases h : key x ≤ key y
    · simp [insertSortedBy, h]
    · simp only [insertSortedBy, if_neg h]
      exact ((insertSortedBy_perm key x l).cons y).trans (List.Perm.swap x y l)

theorem sortListBy_perm {α : Type} (key : α → Int) :
    ∀ l : List α, List.Perm (sortListBy key l) l
  | [] => by simp [sortListBy]
  | x :: l => by
    simpa [sortListBy] using
      (insertSortedBy_perm key x (sortListBy key l)).trans ((sortListBy_perm key l).cons x)

theorem mem_insertSortedBy {α : Type} (key : α → Int) (x y : α) (l : List α) :
    y ∈ insertSortedBy key x l ↔ y = x ∨ y ∈ l := by
  rw [(insertSortedBy_perm key x l).mem_iff]
  simp

theorem insertSortedBy_sorted {α : Type} (key : α → Int) (x : α) :
    ∀ l : List α, List.Sorted (fun a b => key a ≤ key b) l →
      List.Sorted (fun a b => key a ≤ key b) (insertSortedBy key x l)
  | [], _ => by simp [insertSortedBy]
  | y :: l, h => by
    rcases List.sorted_cons.1 h with ⟨hy, hl⟩
    by_cases hxy : key x ≤ key y
    · simp only [insertSortedBy, if_pos hxy]
      refine List.sorted_cons.2 ⟨?_, h⟩
      intro b hb
      cases List.mem_cons.1 hb with
      | inl h2 => exact h2 ▸ hxy
      | inr h2 => exact le_trans hxy (hy b h2)
    · simp only [insertSortedBy, if_neg hxy]
      refine List.sorted_cons.2 ⟨?_, insertSortedBy_sorted key x l hl⟩
      intro b hb
      cases (mem_insertSortedBy key x b l).1 hb with
      | inl h2 => exact h2 ▸ le_of_not_le hxy
      | inr h2 => exact hy b h2

theorem sortListBy_sorted {α : Type} (key : α → Int) :
    ∀ l : List α, List.Sorted (fun a b => key a ≤ key b) (sortListBy key l)
  | [] => by simp [sortListBy]
  | x :: l => insertSortedBy_sorted key x (sortListBy key l) (sortListBy_sorted key l)

theorem sumDeltasLE_nil (t : Int) : sumDeltasLE [] t = 0 := rfl

theorem sumDeltasLE_cons (s : Step) (l : List Step) (t : Int) :
    sumDeltasLE (s :: l) t
      = (if s.date ≤ t then s.delta else 0) + sumDeltasLE l t := by
  by_cases h : s.date ≤ t <;> simp [sumDeltasLE, List.filter_cons, h]

theorem sumDeltasLE_append (l1 l2 : List Step) (t : Int) :
    sumDeltasLE (l1 ++ l2) t = sumDeltasLE l1 t + sumDeltasLE l2 t := by
  simp [sumDeltasLE, List.filter_append]

theorem sumDeltasLE_perm {l1 l2 : List Step} (h : List.Perm l1 l2) (t : Int) :
    sumDeltasLE l1 t = sumDeltasLE l2 t :=
  ((h.filter _).map _).sum_eq

theorem sumDeltasLE_eq_zero {l : List Step} {t : Int}
    (h : ∀ s ∈ l, t < s.date) : sumDeltasLE l t = 0 := by
  have : l.filter (fun s => decide (s.date ≤ t)) = [] := by
    simp only [List.filter_eq_nil_iff, decide_eq_true_eq]
    intro s hs
    exact not_le_of_lt (h s hs)
  simp [sumDeltasLE, this]

theorem mem_dedupAdj : ∀ {l : List Int} {x : Int}, x ∈ dedupAdj l → x ∈ l
  | [], x, h => by simp [dedupAdj] at h
  | [y], x, h => by simpa [dedupAdj] using h
  | y :: z :: l, x, h => by
    by_cases hyz : y = z
    · simp only [dedupAdj, if_pos hyz] at h
      exact List.mem_cons_of_mem y (mem_dedupAdj h)
    · simp only [dedupAdj, if_neg hyz, List.mem_cons] at h
      cases h with
      | inl h2 => exact h2 ▸ List.mem_cons_self x (z :: l)
      | inr h2 => exact List.mem_cons_of_mem y (mem_dedupAdj h2)

theorem dedupAdj_cons_shape (x : Int) :
    ∀ l : List Int, ∃ t : List Int, dedupAdj (x :: l) = x :: t
  | [] => ⟨[], rfl⟩
  | y :: l => by
    by_cases hxy : x = y
    · rcases dedupAdj_cons_shape y l with ⟨t, ht⟩
      exact ⟨t, by simp [dedupAdj, if_pos hxy, hxy, ht]⟩
    · exact ⟨dedupAdj (y :: l), by simp [dedupAdj, if_neg hxy]⟩

theorem dedupAdj_chain :
    ∀ {l : List Int}, List.Sorted (fun a b : Int => a ≤ b) l →
      List.Chain' (fun a b : Int => a < b) (dedupAdj l)
  | [], _ => by simp [dedupAdj]
  | [x], _ => by simp [dedupAdj]
  | x :: y :: l, h => by
    rcases List.sorted_cons.1 h with ⟨hx, hyl⟩
    by_cases hxy : x = y
    · simpa [dedupAdj, if_pos hxy] using dedupAdj_chain hyl
    · simp only [dedupAdj, if_neg hxy]
      rcases dedupAdj_cons_shape y l with ⟨t, ht⟩
      rw [ht]
      refine List.Chain'.cons ?_ (ht ▸ dedupAdj_chain hyl)
      exact lt_of_le_of_ne (hx y (List.mem_cons_self y l)) hxy

theorem sweepGo_dates_lb (hasNew : Bool) (maxQ : Option Int) :
    ∀ (l : List Step) (q : Int) (a : Bool) (curr : PeriodEntry),
      List.Sorted (fun a b : Step => a.date ≤ b.date) l →
      (∀ s ∈ l, curr.date ≤ s.date) →
      ∀ e ∈ (sweepGo hasNew maxQ l q a curr).1, curr.date ≤ e.date
  | [], q, a, curr, _, _, e, he => by
    simp only [sweepGo, List.mem_singleton] at he
    exact he ▸ le_refl _
  | step :: rest, q, a, curr, hsort, hlb, e, he => by
    by_cases hdate : step.date = curr.date
    · simp only [sweepGo, if_pos hdate] at he
      exact sweepGo_dates_lb hasNew maxQ rest (q + step.delta)
        (availStep hasNew maxQ (q + step.delta) a) { curr with quantity := q + step.delta }
        (List.sorted_cons.1 hsort).2
        (fun s hs => hlb s (List.mem_cons_of_mem step hs)) e he
    · simp only [sweepGo, if_neg hdate, List.mem_cons] at he
      cases he with
      | inl h2 => exact h2 ▸ le_refl _
      | inr h2 =>
        have hcs : curr.date ≤ step.date := hlb step (List.mem_cons_self step rest)
        have hrec := sweepGo_dates_lb hasNew maxQ rest (q + step.delta)
          (availStep hasNew maxQ (q + step.delta) a)
          { date := step.date, quantity := q + step.delta, newPeriod := step.newPeriod }
          (List.sorted_cons.1 hsort).2
          (fun s hs => List.rel_of_sorted_cons hsort s hs) e h2
        exact le_trans hcs hrec

theorem sweepGo_map_dates (hasNew : Bool) (maxQ : Option Int) :
    ∀ (l : List Step) (q : Int) (a : Bool) (curr : PeriodEntry),
      (sweepGo hasNew maxQ l q a curr).1.map (fun e => e.date)
        = dedupAdj (curr.date :: l.map (fun s => s.date))
  | [], q, a, curr => by simp [sweepGo, dedupAdj]
  | step :: rest, q, a, curr => by
    by_cases hdate : step.date = curr.date
    · simp only [sweepGo, if_pos hdate]
      rw [sweepGo_map_dates hasNew maxQ rest (q + step.delta)
        (availStep hasNew maxQ (q + step.delta) a) { curr with quantity := q + step.delta }]
      simp only [List.map_cons]
      rw [show dedupAdj (curr.date :: step.date :: rest.map (fun s => s.date))
          = dedupAdj (step.date :: rest.map (fun s => s.date)) from by
        simp [dedupAdj, hdate.symm]]
      rw [hdate]
    · simp only [sweepGo, if_neg hdate, List.map_cons]
      rw [sweepGo_map_dates hasNew maxQ rest (q + step.delta)
        (availStep hasNew maxQ (q + step.delta) a)
        { date := step.date, quantity := q + step.delta, newPeriod := step.newPeriod }]
      simp only [dedupAdj]
      rw [if_neg (show ¬curr.date = step.date from fun h => hdate h.symm)]

theorem sweepGo_quantity (hasNew : Bool) (maxQ : Option Int) :
    ∀ (l : List Step) (q : Int) (a : Bool) (curr : PeriodEntry),
      List.Sorted (fun a b : Step => a.date ≤ b.date) l →
      (∀ s ∈ l, curr.date ≤ s.date) →
      curr.quantity = q →
      ∀ e ∈ (sweepGo hasNew maxQ l q a curr).1, e.quantity = q + sumDeltasLE l e.date
  | [], q, a, curr, _, _, hq, e, he => by
    simp only [sweepGo, List.mem_singleton] at he
    simp [he, hq, sumDeltasLE_nil]
  | step :: rest, q, a, curr, hsort, hlb, hq, e, he => by
    have hsr := (List.sorted_cons.1 hsort).2
    by_cases hdate : step.date = curr.date
    · simp only [sweepGo, if_pos hdate] at he
      have hlb2 : ∀ s ∈ rest, curr.date ≤ s.date :=
        fun s hs => hlb s (List.mem_cons_of_mem step hs)
      have hrec := sweepGo_quantity hasNew maxQ rest (q + step.delta)
        (availStep hasNew maxQ (q + step.delta) a) { curr with quantity := q + step.delta }
        hsr hlb2 rfl e he
      have hed : curr.date ≤ e.date := sweepGo_dates_lb hasNew maxQ rest (q + step.delta)
        (availStep hasNew maxQ (q + step.delta) a) { curr with quantity := q + step.delta }
        hsr hlb2 e he
      rw [sumDeltasLE_cons, if_pos (hdate ▸ hed)]
      omega
    · simp only [sweepGo, if_neg hdate, List.mem_cons] at he
      have hcs : curr.date < step.date :=
        lt_of_le_of_ne (hlb step (List.mem_cons_self step rest)) (fun h => hdate h.symm)
      have hlbs : ∀ s ∈ rest, step.date ≤ s.date :=
        fun s hs => List.rel_of_sorted_cons hsort s hs
      cases he with
      | inl h2 =>
        subst h2
        rw [sumDeltasLE_cons, if_neg (not_le_of_lt hcs),
          sumDeltasLE_eq_zero (fun s hs => lt_of_lt_of_le hcs (hlbs s hs))]
        omega
      | inr h2 =>
        have hrec := sweepGo_quantity hasNew maxQ rest (q + step.delta)
          (availStep hasNew maxQ (q + step.delta) a)
          { date := step.date, quantity := q + step.delta, newPeriod := step.newPeriod }
          hsr hlbs rfl e h2
        have hed : step.date ≤ e.date := sweepGo_dates_lb hasNew maxQ rest (q + step.delta)
          (availStep hasNew maxQ (q + step.delta) a)
          { date := step.date, quantity := q + step.delta, newPeriod := step.newPeriod }
          hsr hlbs e h2
        rw [sumDeltasLE_cons, if_pos hed]
        omega

theorem sweepGo_tags (hasNew : Bool) (maxQ : Option Int) :
    ∀ (l : List Step) (q : Int) (a : Bool) (curr : PeriodEntry),
      List.Sorted (fun a b : Step => a.date ≤ b.date) l →
      (∀ s ∈ l, curr.date ≤ s.date) →
      ∀ e ∈ (sweepGo hasNew maxQ l q a curr).1,
        (e.date = curr.date → e.newPeriod = curr.newPeriod) ∧
        (e.date ≠ curr.date →
          (l.find? (fun s => s.date = e.date)).map (fun s => s.newPeriod)
            = some e.newPeriod)
  | [], q, a, curr, _, _, e, he => by
    simp only [sweepGo, List.mem_singleton] at he
    subst he
    exact ⟨fun _ => rfl, fun h => absurd rfl h⟩
  | step :: rest, q, a, curr, hsort, hlb, e, he => by
    have hsr := (List.sorted_cons.1 hsort).2
    by_cases hdate : step.date = curr.date
    · simp only [sweepGo, if_pos hdate] at he
      have hlb2 : ∀ s ∈ rest, curr.date ≤ s.date :=
        fun s hs => hlb s (List.mem_cons_of_mem step hs)
      have hrec := sweepGo_tags hasNew maxQ rest (q + step.delta)
        (availStep hasNew maxQ (q + step.delta) a) { curr with quantity := q + step.delta }
        hsr hlb2 e he
      refine ⟨fun h => hrec.1 h, fun h => ?_⟩
      rw [List.find?_cons_of_neg, hrec.2 h]
      simp only [decide_eq_true_eq]
      exact fun h2 => h (h2 ▸ hdate)
    · simp only [sweepGo, if_neg hdate, List.mem_cons] at he
      have hcs : curr.date < step.date :=
        lt_of_le_of_ne (hlb step (List.mem_cons_self step rest)) (fun h => hdate h.symm)
      have hlbs : ∀ s ∈ rest, step.date ≤ s.date :=
        fun s hs => List.rel_of_sorted_cons hsort s hs
      cases he with
      | inl h2 =>
        subst h2
        exact ⟨fun _ => rfl, fun h => absurd rfl h⟩
      | inr h2 =>
        have hrec := sweepGo_tags hasNew maxQ rest (q + step.delta)
          (availStep hasNew maxQ (q + step.delta) a)
          { date := step.date, quantity := q + step.delta, newPeriod := step.newPeriod }
          hsr hlbs e h2
        have hed : step.date ≤ e.date := sweepGo_dates_lb hasNew maxQ rest (q + step.delta)
          (availStep hasNew maxQ (q + step.delta) a)
          { date := step.date, quantity := q + step.delta, newPeriod := step.newPeriod }
          hsr hlbs e h2
        have hne : e.date ≠ curr.date := fun h => by omega
        refine ⟨fun h => absurd h hne, fun _ => ?_⟩
        by_cases he2 : e.date = step.date
        · rw [List.find?_cons_of_pos]
          · simp [hrec.1 he2]
          · simp [he2.symm]
        · rw [List.find?_cons_of_neg, hrec.2 he2]
          simp only [decide_eq_true_eq]
          exact fun h2 => he2 (h2.symm)

theorem availStep_eq (hasNew : Bool) (maxQ : Option Int) (q : Int) (a : Bool) :
    availStep hasNew maxQ q a = (a && !(breachCond hasNew maxQ q)) := by
  cases a <;> cases h : breachCond hasNew maxQ q <;> simp [availStep, h]

theorem sweepGo_avail (hasNew : Bool) (maxQ : Option Int) :
    ∀ (l : List Step) (q : Int) (a : Bool) (curr : PeriodEntry),
      (sweepGo hasNew maxQ l q a curr).2 = (a && noBreachList hasNew maxQ l q)
  | [], q, a, curr => by simp [sweepGo, noBreachList]
  | step :: rest, q, a, curr => by
    by_cases hdate : step.date = curr.date
    · simp only [sweepGo, if_pos hdate]
      rw [sweepGo_avail hasNew maxQ rest (q + step.delta)
        (availStep hasNew maxQ (q + step.delta) a) { curr with quantity := q + step.delta },
        availStep_eq]
      simp [noBreachList, Bool.and_comm, Bool.and_left_comm, Bool.and_assoc]
    · simp only [sweepGo, if_neg hdate]
      rw [sweepGo_avail hasNew maxQ rest (q + step.delta)
        (availStep hasNew maxQ (q + step.delta) a)
        { date := step.date, quantity := q + step.delta, newPeriod := step.newPeriod },
        availStep_eq]
      simp [noBreachList, Bool.and_comm, Bool.and_left_comm, Bool.and_assoc]

theorem sweepPeriods_avail (hasNew : Bool) (maxQ : Option Int) :
    ∀ l : List Step, (sweepPeriods hasNew maxQ l).2 = noBreachList hasNew maxQ l 0
  | [] => rfl
  | step :: rest => by
    simp only [sweepPeriods]
    rw [sweepGo_avail, availStep_eq]
    simp [noBreachList, zero_add]

theorem sumDeltasTake_zero (l : List Step) : sumDeltasTake l 0 = 0 := rfl

theorem sumDeltasTake_cons (s : Step) (l : List Step) (k : Nat) :
    sumDeltasTake (s :: l) (k + 1) = s.delta + sumDeltasTake l k := by
  simp [sumDeltasTake, List.take_succ_cons]

theorem noBreachList_true_iff (m : Int) :
    ∀ (l : List Step) (q : Int),
      noBreachList true (some m) l q = true ↔
        ∀ k : Nat, k < l.length → q + sumDeltasTake l (k + 1) ≤ m
  | [], q => by simp [noBreachList]
  | s :: l, q => by
    rw [show noBreachList true (some m) (s :: l) q
        = (!(breachCond true (some m) (q + s.delta))
            && noBreachList true (some m) l (q + s.delta)) from rfl]
    rw [Bool.and_eq_true, Bool.not_eq_true']
    rw [noBreachList_true_iff m l (q + s.delta)]
    simp only [breachCond, Bool.true_and, decide_eq_false_iff_not, not_lt, List.length_cons]
    constructor
    · rintro ⟨h1, h2⟩ k hk
      cases k with
      | zero =>
        rw [sumDeltasTake_cons, sumDeltasTake_zero]
        omega
      | succ j =>
        have h3 := h2 j (by omega)
        rw [sumDeltasTake_cons]
        omega
    · intro h
      refine ⟨?_, fun k hk => ?_⟩
      · have h3 := h 0 (by omega)
        rw [sumDeltasTake_cons, sumDeltasTake_zero] at h3
        omega
      · have h3 := h (k + 1) (by omega)
        rw [sumDeltasTake_cons] at h3
        omega

theorem sweepPeriods_map_dates (hasNew : Bool) (maxQ : Option Int) :
    ∀ steps : List Step,
      (sweepPeriods hasNew maxQ steps).1.map (fun e => e.date)
        = dedupAdj (steps.map (fun s => s.date))
  | [] => rfl
  | s :: rest => by
    simp only [sweepPeriods, List.map_cons]
    exact sweepGo_map_dates hasNew maxQ rest s.delta
      (availStep hasNew maxQ s.delta true)
      { date := s.date, quantity := s.delta, newPeriod := s.newPeriod }

theorem sweepPeriods_quantity (hasNew : Bool) (maxQ : Option Int) (steps : List Step)
    (hs : List.Sorted (fun a b : Step => a.date ≤ b.date) steps) :
    ∀ e ∈ (sweepPeriods hasNew maxQ steps).1, e.quantity = sumDeltasLE steps e.date := by
  cases steps with
  | nil => intro e he; simp [sweepPeriods] at he
  | cons s rest =>
    intro e he
    simp only [sweepPeriods] at he
    have hsr := (List.sorted_cons.1 hs).2
    have hlb : ∀ x ∈ rest, s.date ≤ x.date := List.rel_of_sorted_cons hs
    have hq := sweepGo_quantity hasNew maxQ rest s.delta
      (availStep hasNew maxQ s.delta true)
      { date := s.date, quantity := s.delta, newPeriod := s.newPeriod }
      hsr hlb rfl e he
    have hed : s.date ≤ e.date := sweepGo_dates_lb hasNew maxQ rest s.delta
      (availStep hasNew maxQ s.delta true)
      { date := s.date, quantity := s.delta, newPeriod := s.newPeriod }
      hsr hlb e he
    rw [sumDeltasLE_cons, if_pos hed]
    omega

theorem sweepPeriods_tags (hasNew : Bool) (maxQ : Option Int) (steps : List Step)
    (hs : List.Sorted (fun a b : Step => a.date ≤ b.date) steps) :
    ∀ e ∈ (sweepPeriods hasNew maxQ steps).1,
      (steps.find? (fun s => s.date = e.date)).map (fun s => s.newPeriod)
        = some e.newPeriod := by
  cases steps with
  | nil => intro e he; simp [sweepPeriods] at he
  | cons s rest =>
    intro e he
    simp only [sweepPeriods] at he
    have hsr := (List.sorted_cons.1 hs).2
    have hlb : ∀ x ∈ rest, s.date ≤ x.date := List.rel_of_sorted_cons hs
    have htag := sweepGo_tags hasNew maxQ rest s.delta
      (availStep hasNew maxQ s.delta true)
      { date := s.date, quantity := s.delta, newPeriod := s.newPeriod }
      hsr hlb e he
    by_cases he2 : e.date = s.date
    · rw [List.find?_cons_of_pos]
      · simp [htag.1 he2]
      · simp [he2.symm]
    · rw [List.find?_cons_of_neg, htag.2 he2]
      simp only [decide_eq_true_eq]
      exact fun h2 => he2 h2.symm

theorem lookupQ_nil (d : Int) : lookupQ [] d = 0 := rfl

theorem lookupQ_bump (d q : Int) :
    ∀ (l : List DateEntry) (d2 : Int),
      lookupQ (bumpBucket d q l) d2 = lookupQ l d2 + (if d = d2 then q else 0)
  | [], d2 => by
    by_cases h : d = d2
    · subst h
      simp [bumpBucket, lookupQ, List.find?_cons_of_pos]
    · rw [show bumpBucket d q [] = [{ date := d, quantity := q, selected := false }] from rfl]
      unfold lookupQ
      rw [List.find?_cons_of_neg, if_neg h]
      · rfl
      · simp [h]
  | e :: rest, d2 => by
    by_cases hed : e.date = d
    · simp only [bumpBucket, if_pos hed]
      by_cases h2 : e.date = d2
      · unfold lookupQ
        rw [List.find?_cons_of_pos _ (by simp [h2]), List.find?_cons_of_pos _ (by simp [h2])]
        simp only [Option.map_some', Option.getD_some]
        rw [if_pos (by omega)]
      · unfold lookupQ
        rw [List.find?_cons_of_neg _ (by simp [h2]), List.find?_cons_of_neg _ (by simp [h2])]
        rw [if_neg (by omega)]
        omega
    · simp only [bumpBucket, if_neg hed]
      by_cases h2 : e.date = d2
      · unfold lookupQ
        rw [List.find?_cons_of_pos _ (by simp [h2]), List.find?_cons_of_pos _ (by simp [h2])]
        simp only [Option.map_some', Option.getD_some]
        rw [if_neg (by omega)]
        omega
      · unfold lookupQ
        rw [List.find?_cons_of_neg _ (by simp [h2]), List.find?_cons_of_neg _ (by simp [h2])]
        exact lookupQ_bump d q rest d2

theorem lookupQ_select (d : Int) :
    ∀ (l : List DateEntry) (d2 : Int), lookupQ (selectBucket d l) d2 = lookupQ l d2
  | [], d2 => rfl
  | e :: rest, d2 => by
    by_cases hed : e.date = d
    · simp only [selectBucket, if_pos hed]
      by_cases h2 : e.date = d2
      · unfold lookupQ
        rw [List.find?_cons_of_pos _ (by simp [h2]), List.find?_cons_of_pos _ (by simp [h2])]
        rfl
      · unfold lookupQ
        rw [List.find?_cons_of_neg _ (by simp [h2]), List.find?_cons_of_neg _ (by simp [h2])]
    · simp only [selectBucket, if_neg hed]
      by_cases h2 : e.date = d2
      · unfold lookupQ
        rw [List.find?_cons_of_pos _ (by simp [h2]), List.find?_cons_of_pos _ (by simp [h2])]
      · unfold lookupQ
        rw [List.find?_cons_of_neg _ (by simp [h2]), List.find?_cons_of_neg _ (by simp [h2])]
        exact lookupQ_select d rest d2

theorem dates_select (d : Int) :
    ∀ l : List DateEntry,
      (selectBucket d l).map (fun e => e.date) = l.map (fun e => e.date)
  | [] => rfl
  | e :: rest => by
    by_cases hed : e.date = d
    · simp [selectBucket, if_pos hed]
    · simp only [selectBucket, if_neg hed, List.map_cons]
      rw [dates_select d rest]

theorem mem_dates_bump (d q : Int) :
    ∀ (l : List DateEntry) (x : Int),
      x ∈ (bumpBucket d q l).map (fun e => e.date)
        ↔ x = d ∨ x ∈ l.map (fun e => e.date)
  | [], x => by simp [bumpBucket]
  | e :: rest, x => by
    by_cases hed : e.date = d
    · simp only [bumpBucket, if_pos hed, List.map_cons, List.mem_cons]
      constructor
      · intro h
        cases h with
        | inl h2 => exact Or.inr (Or.inl h2)
        | inr h2 => exact Or.inr (Or.inr h2)
      · intro h
        rcases h with h2 | h2 | h2
        · exact Or.inl (by omega)
        · exact Or.inl h2
        · exact Or.inr h2
    · simp only [bumpBucket, if_neg hed, List.map_cons, List.mem_cons]
      rw [mem_dates_bump d q rest x]
      tauto

theorem nodup_dates_bump (d q : Int) :
    ∀ l : List DateEntry,
      ((l.map (fun e => e.date)).Nodup) →
      ((bumpBucket d q l).map (fun e => e.date)).Nodup
  | [], _ => by simp [bumpBucket]
  | e :: rest, h => by
    rw [List.map_cons, List.nodup_cons] at h
    by_cases hed : e.date = d
    · simp only [bumpBucket, if_pos hed, List.map_cons]
      exact List.nodup_cons.2 ⟨h.1, h.2⟩
    · simp only [bumpBucket, if_neg hed, List.map_cons]
      refine List.nodup_cons.2 ⟨?_, nodup_dates_bump d q rest h.2⟩
      rw [mem_dates_bump d q rest e.date]
      push_neg
      exact ⟨hed, h.1⟩

theorem find?_eq_of_mem_nodup :
    ∀ (l : List DateEntry) (e : DateEntry), e ∈ l →
      ((l.map (fun x => x.date)).Nodup) →
      l.find? (fun x => x.date = e.date) = some e
  | [], e, he, _ => by simp at he
  | f :: rest, e, he, hn => by
    rw [List.map_cons, List.nodup_cons] at hn
    cases List.mem_cons.1 he with
    | inl h2 =>
      subst h2
      exact List.find?_cons_of_pos rest (by simp)
    | inr h2 =>
      have hfe : f.date ≠ e.date := by
        intro h3
        exact hn.1 (h3 ▸ List.mem_map_of_mem (fun x => x.date) h2)
      rw [List.find?_cons_of_neg rest (by simp [hfe])]
      exact find?_eq_of_mem_nodup rest e h2 hn.2

theorem lookupQ_of_mem_nodup {l : List DateEntry} {e : DateEntry} (he : e ∈ l)
    (hn : ((l.map (fun x => x.date)).Nodup)) : lookupQ l e.date = e.quantity := by
  unfold lookupQ
  rw [find?_eq_of_mem_nodup l e he hn]
  rfl

theorem dateQuantityTotal_nil (d : Int) : dateQuantityTotal [] d = 0 := rfl

theorem dateQuantityTotal_cons (b : DateBooking) (fb : List DateBooking) (d : Int) :
    dateQuantityTotal (b :: fb) d
      = (if b.startDate = d then b.quantity else 0) + dateQuantityTotal fb d := by
  by_cases h : b.startDate = d <;> simp [dateQuantityTotal, List.filter_cons, h]

theorem buckets_fold_lookupQ :
    ∀ (fb : List DateBooking) (init : List DateEntry) (d : Int),
      lookupQ (fb.foldl (fun acc b => bumpBucket b.startDate b.quantity acc) init) d
        = lookupQ init d + dateQuantityTotal fb d
  | [], init, d => by simp [dateQuantityTotal]
  | b :: fb, init, d => by
    simp only [List.foldl_cons]
    rw [buckets_fold_lookupQ fb (bumpBucket b.startDate b.quantity init) d,
      lookupQ_bump, dateQuantityTotal_cons]
    omega

theorem buckets_fold_mem :
    ∀ (fb : List DateBooking) (init : List DateEntry) (x : Int),
      (x ∈ (fb.foldl (fun acc b => bumpBucket b.startDate b.quantity acc) init).map
          (fun e => e.date))
        ↔ x ∈ init.map (fun e => e.date) ∨ ∃ b ∈ fb, b.startDate = x
  | [], init, x => by simp
  | b :: fb, init, x => by
    simp only [List.foldl_cons]
    rw [buckets_fold_mem fb (bumpBucket b.startDate b.quantity init) x,
      mem_dates_bump]
    simp only [List.mem_cons]
    constructor
    · intro h
      rcases h with (h2 | h2) | h2
      · exact Or.inr ⟨b, Or.inl rfl, h2.symm⟩
      · exact Or.inl h2
      · rcases h2 with ⟨c, hc, hcx⟩
        exact Or.inr ⟨c, Or.inr hc, hcx⟩
    · intro h
      rcases h with h2 | ⟨c, hc, hcx⟩
      · exact Or.inl (Or.inr h2)
      · rcases hc with hc | hc
        · exact Or.inl (Or.inl (by rw [← hcx, hc]))
        · exact Or.inr ⟨c, hc, hcx⟩

theorem buckets_fold_nodup :
    ∀ (fb : List DateBooking) (init : List DateEntry),
      ((init.map (fun e => e.date)).Nodup) →
      (((fb.foldl (fun acc b => bumpBucket b.startDate b.quantity acc) init).map
        (fun e => e.date)).Nodup)
  | [], init, h => h
  | b :: fb, init, h => by
    simp only [List.foldl_cons]
    exact buckets_fold_nodup fb (bumpBucket b.startDate b.quantity init)
      (nodup_dates_bump b.startDate b.quantity init h)

theorem buckets_lookupQ (fb : List DateBooking) (nb : Option DateNewBooking) (d : Int) :
    lookupQ (applyCandidate nb (buildBuckets fb)) d
      = dateQuantityTotal fb d + candContrib nb d := by
  cases nb with
  | none =>
    simp only [applyCandidate, candContrib, buildBuckets]
    rw [buckets_fold_lookupQ fb [] d, lookupQ_nil]
    omega
  | some n =>
    simp only [applyCandidate, candContrib, buildBuckets]
    rw [lookupQ_select, lookupQ_bump, buckets_fold_lookupQ fb [] d, lookupQ_nil]
    split_ifs <;> omega

theorem buckets_nodup (fb : List DateBooking) (nb : Option DateNewBooking) :
    (((applyCandidate nb (buildBuckets fb)).map (fun e => e.date)).Nodup) := by
  have h0 : ((buildBuckets fb).map (fun e => e.date)).Nodup :=
    buckets_fold_nodup fb [] (by simp)
  cases nb with
  | none => exact h0
  | some n =>
    simp only [applyCandidate]
    rw [dates_select]
    exact nodup_dates_bump n.startDate n.quantity (buildBuckets fb) h0

theorem buckets_mem (fb : List DateBooking) (nb : Option DateNewBooking) (x : Int) :
    x ∈ (applyCandidate nb (buildBuckets fb)).map (fun e => e.date)
      ↔ (∃ b ∈ fb, b.startDate = x) ∨ (∃ n, nb = some n ∧ n.startDate = x) := by
  cases nb with
  | none =>
    simp only [applyCandidate, buildBuckets]
    rw [buckets_fold_mem fb [] x]
    simp
  | some n =>
    simp only [applyCandidate]
    rw [dates_select, mem_dates_bump]
    simp only [buildBuckets]
    rw [buckets_fold_mem fb [] x]
    simp only [List.map_nil, List.not_mem_nil, false_or]
    constructor
    · intro h
      rcases h with h2 | h2
      · exact Or.inr ⟨n, rfl, h2.symm⟩
      · exact Or.inl h2
    · intro h
      rcases h with h2 | ⟨m, hm, hmx⟩
      · exact Or.inr h2
      · cases Option.some.injEq n m ▸ hm with
        | _ => exact Or.inl (by cases hm; exact hmx.symm)

theorem chain_lt_of_sorted_nodup {α : Type} (key : α → Int) (l : List α)
    (hs : List.Sorted (fun a b => key a ≤ key b) l)
    (hn : ((l.map key).Nodup)) :
    List.Chain' (fun a b => key a < key b) l := by
  have hp : l.Pairwise (fun a b => key a ≠ key b) := (List.pairwise_map).1 hn
  exact (hs.imp₂ (fun a b h1 h2 => lt_of_le_of_ne h1 h2) hp).chain'

theorem noBreachList_none (hasNew : Bool) :
    ∀ (l : List Step) (q : Int), noBreachList hasNew none l q = true
  | [], _ => rfl
  | s :: l, q => by
    simp [noBreachList, breachCond, noBreachList_none hasNew l (q + s.delta)]

theorem noBreachList_hasNew_false (maxQ : Option Int) :
    ∀ (l : List Step) (q : Int), noBreachList false maxQ l q = true
  | [], _ => rfl
  | s :: l, q => by
    simp [noBreachList, breachCond, noBreachList_hasNew_false maxQ l (q + s.delta)]

theorem lastWithStartDate_map_available (las : List DateListingAvailability)
    (f : DateListingAvailability → Bool) (d : Int) :
    lastWithStartDate (las.map (fun la => { la with available := f la })) d
      = (lastWithStartDate las d).map (fun la => { la with available := f la }) := by
  unfold lastWithStartDate
  rw [List.filter_map, List.getLast?_map]
  rfl

/-- C8: neither engine can fail (both are total functions of their inputs,
mirroring the absence of any throw in the source functions), and whenever no
numeric maxQuantity is supplied, or no candidate is supplied, the returned
isAvailable is true, for both engines. -/
theorem degenerate_inputs_available
    (fb : List Booking) (la : List ListingAvailability) (nb : Option NewBooking)
    (mq : Option Int)
    (dfb : List DateBooking) (dla : List DateListingAvailability)
    (dnb : Option DateNewBooking) (dmq : Option Int) :
    (getAvailabilityPeriods fb la nb none).isAvailable = true ∧
    (getAvailabilityPeriods fb la none mq).isAvailable = true ∧
    (getAvailabilityDates dfb dla dnb none).isAvailable = true ∧
    (getAvailabilityDates dfb dla none dmq).isAvailable = true := by
  refine ⟨?_, ?_, ?_, ?_⟩
  · show (sweepPeriods nb.isSome none
      (sortListBy (fun s => s.date) (buildDateSteps fb la nb))).2 = true
    rw [sweepPeriods_avail]
    exact noBreachList_none nb.isSome _ 0
  · show (sweepPeriods false mq
      (sortListBy (fun s => s.date) (buildDateSteps fb la none))).2 = true
    rw [sweepPeriods_avail]
    exact noBreachList_hasNew_false mq _ 0
  · cases dnb <;> rfl
  · rfl

/-- C2: in date mode with a candidate and a numeric maxQuantity, the verdict
compares the candidate date bucket total (the booked quantities at exactly
that date plus the candidate quantity) against the quantity of the owner
declaration at that exact date when one exists (the last such declaration,
since later index entries overwrite earlier ones), and against the global
maxQuantity otherwise: the per-date declaration overrides the global ceiling
entirely. -/
theorem dates_ceiling_override (fb : List DateBooking)
    (las : List DateListingAvailability) (nb : DateNewBooking) (m : Int) :
    (getAvailabilityDates fb las (some nb) (some m)).isAvailable
      = decide (dateQuantityTotal fb nb.startDate + nb.quantity ≤
          (match lastWithStartDate las nb.startDate with
           | some la => la.quantity
           | none => m)) := by
  cases h2 : lastWithStartDate las nb.startDate with
  | some la =>
    simp only [getAvailabilityDates, h2]
    rw [buckets_lookupQ]
    simp [candContrib]
  | none =>
    simp only [getAvailabilityDates, h2]
    rw [buckets_lookupQ]
    simp [candContrib]

/-- C10: the result of getAvailabilityDates does not depend on the available
flags of the supplied declarations: replacing every available flag pointwise
(by an arbitrary function of the declaration) leaves the verdict, the exposed
declaration list and the date list all unchanged. -/
theorem dates_ignore_available (fb : List DateBooking)
    (las : List DateListingAvailability) (nb : Option DateNewBooking)
    (mq : Option Int) (f : DateListingAvailability → Bool) :
    getAvailabilityDates fb
        (las.map (fun la => { la with available := f la })) nb mq
      = getAvailabilityDates fb las nb mq := by
  have hexp : (las.map (fun la => { la with available := f la })).map
      (fun la => ({ startDate := la.startDate, quantity := la.quantity } :
        ExposedAvailability))
      = las.map (fun la => ({ startDate := la.startDate, quantity := la.quantity } :
        ExposedAvailability)) := by
    rw [List.map_map]
    rfl
  cases nb with
  | none =>
    simp only [getAvailabilityDates, hexp]
  | some n =>
    cases mq with
    | none => simp only [getAvailabilityDates, hexp]
    | some m =>
      simp only [getAvailabilityDates, hexp, lastWithStartDate_map_available]
      cases lastWithStartDate las n.startDate <;> rfl

/-- C4: in date mode every reservation quantity is summed into the single
bucket of its exact date, the candidate quantity is added into the bucket of
its date, and availableDates is exactly these buckets in strictly increasing
date order: each listed entry carries the accumulated total of its date, and
a date is listed iff some reservation or the candidate falls on it. -/
theorem dates_bucket_spec (fb : List DateBooking)
    (las : List DateListingAvailability) (nb : Option DateNewBooking)
    (mq : Option Int) :
    List.Chain' (fun a b : DateEntry => a.date < b.date)
        (getAvailabilityDates fb las nb mq).availableDates ∧
    (∀ e ∈ (getAvailabilityDates fb las nb mq).availableDates,
      e.quantity = dateQuantityTotal fb e.date + candContrib nb e.date) ∧
    (∀ d : Int,
      (∃ e ∈ (getAvailabilityDates fb las nb mq).availableDates, e.date = d)
        ↔ ((∃ b ∈ fb, b.startDate = d) ∨ (∃ n, nb = some n ∧ n.startDate = d))) := by
  have hAD : (getAvailabilityDates fb las nb mq).availableDates
      = sortListBy (fun e => e.date) (applyCandidate nb (buildBuckets fb)) := by
    cases nb <;> rfl
  have hperm := sortListBy_perm (fun e : DateEntry => e.date)
    (applyCandidate nb (buildBuckets fb))
  have hnd : (((sortListBy (fun e : DateEntry => e.date)
      (applyCandidate nb (buildBuckets fb))).map (fun e => e.date)).Nodup) :=
    ((hperm.map (fun e => e.date)).nodup_iff).2 (buckets_nodup fb nb)
  refine ⟨?_, ?_, ?_⟩
  · rw [hAD]
    exact chain_lt_of_sorted_nodup (fun e : DateEntry => e.date) _
      (sortListBy_sorted _ _) hnd
  · rw [hAD]
    intro e he
    have hmem : e ∈ applyCandidate nb (buildBuckets fb) := hperm.mem_iff.1 he
    have h1 := lookupQ_of_mem_nodup hmem (buckets_nodup fb nb)
    rw [buckets_lookupQ] at h1
    omega
  · rw [hAD]
    intro d
    rw [show (∃ e ∈ sortListBy (fun e : DateEntry => e.date)
          (applyCandidate nb (buildBuckets fb)), e.date = d)
        ↔ d ∈ (applyCandidate nb (buildBuckets fb)).map (fun e => e.date) from by
      rw [List.mem_map]
      constructor
      · rintro ⟨e, he, hed⟩
        exact ⟨e, hperm.mem_iff.1 he, hed⟩
      · rintro ⟨e, he, hed⟩
        exact ⟨e, hperm.mem_iff.2 he, hed⟩]
    exact buckets_mem fb nb d

/-- C7: the availablePeriods list returned by getAvailabilityPeriods, anchor
included, is strictly chronologically ordered: every entry has a date
strictly greater than the previous one, so no two entries share a
timestamp. -/
theorem periods_strictly_ordered (fb : List Booking)
    (la : List ListingAvailability) (nb : Option NewBooking) (mq : Option Int) :
    List.Pairwise (fun a b : PeriodEntry => a.date < b.date)
      (getAvailabilityPeriods fb la nb mq).availablePeriods := by
  haveI : IsTrans PeriodEntry (fun a b => a.date < b.date) :=
    ⟨fun a b c h1 h2 => lt_trans h1 h2⟩
  have hAP : (getAvailabilityPeriods fb la nb mq).availablePeriods
      = (match (sweepPeriods nb.isSome mq
            (sortListBy (fun s => s.date) (buildDateSteps fb la nb))).1 with
         | [] => ([] : List PeriodEntry)
         | first :: rest =>
           { date := first.date - oneDay, quantity := 0, newPeriod := none }
             :: first :: rest) := by
    cases nb <;> rfl
  have hds : List.Sorted (fun a b : Int => a ≤ b)
      ((sortListBy (fun s => s.date) (buildDateSteps fb la nb)).map
        (fun s => s.date)) :=
    List.pairwise_map.2 (sortListBy_sorted _ _)
  have hchain : List.Chain' (fun a b : PeriodEntry => a.date < b.date)
      (sweepPeriods nb.isSome mq
        (sortListBy (fun s => s.date) (buildDateSteps fb la nb))).1 := by
    refine (List.chain'_map (fun e : PeriodEntry => e.date)).1 ?_
    rw [sweepPeriods_map_dates]
    exact dedupAdj_chain hds
  rw [hAP]
  cases hout : (sweepPeriods nb.isSome mq
      (sortListBy (fun s => s.date) (buildDateSteps fb la nb))).1 with
  | nil => simp
  | cons first rest =>
    rw [hout] at hchain
    have hpw : List.Pairwise (fun a b : PeriodEntry => a.date < b.date)
        (first :: rest) := List.chain'_iff_pairwise.1 hchain
    refine List.pairwise_cons.2 ⟨?_, hpw⟩
    intro e he
    show first.date - oneDay < e.date
    cases List.mem_cons.1 he with
    | inl h2 =>
      subst h2
      simp only [oneDay]
      omega
    | inr h2 =>
      have h3 := (List.pairwise_cons.1 hpw).1 e h2
      simp only [oneDay]
      omega

/-- C6: whenever the timeline is non-empty, its first entry is the synthetic
anchor, whose date is exactly one calendar day before the earliest event date
and whose quantity is 0; when the timeline is empty both heads are none and no
anchor is added.  The second conjunct certifies that the head of the sorted
step list is indeed the earliest event. -/
theorem periods_anchor_spec (fb : List Booking) (la : List ListingAvailability)
    (nb : Option NewBooking) (mq : Option Int) :
    ((getAvailabilityPeriods fb la nb mq).availablePeriods.head?.map
        (fun a => (a.date, a.quantity)))
      = ((sortListBy (fun s => s.date) (buildDateSteps fb la nb)).head?.map
          (fun s => (s.date - oneDay, 0))) ∧
    List.Sorted (fun a b : Int => a ≤ b)
      ((sortListBy (fun s => s.date) (buildDateSteps fb la nb)).map
        (fun s => s.date)) := by
  refine ⟨?_, List.pairwise_map.2 (sortListBy_sorted _ _)⟩
  have hAP : (getAvailabilityPeriods fb la nb mq).availablePeriods
      = (match (sweepPeriods nb.isSome mq
            (sortListBy (fun s => s.date) (buildDateSteps fb la nb))).1 with
         | [] => ([] : List PeriodEntry)
         | first :: rest =>
           { date := first.date - oneDay, quantity := 0, newPeriod := none }
             :: first :: rest) := by
    cases nb <;> rfl
  rw [hAP]
  cases hsteps : sortListBy (fun s => s.date) (buildDateSteps fb la nb) with
  | nil => rfl
  | cons s rest =>
    have hmap := sweepPeriods_map_dates nb.isSome mq (s :: rest)
    rcases dedupAdj_cons_shape s.date (rest.map (fun x => x.date)) with ⟨t, ht⟩
    rw [List.map_cons, ht] at hmap
    cases hout : (sweepPeriods nb.isSome mq (s :: rest)).1 with
    | nil => rw [hout] at hmap; simp at hmap
    | cons first rest2 =>
      rw [hout, List.map_cons] at hmap
      have hfd : first.date = s.date := by
        have h2 := hmap
        simp only [List.cons.injEq] at h2
        exact h2.1
      simp [hfd]

/-- C1 (corrected): with a candidate and a numeric maxQuantity, the verdict is
unavailable iff the post-delta running quantity exceeds maxQuantity after
some step of the sorted sweep, wherever that step lies: a breach occurring at
steps strictly before any point affected by the candidate also makes the
candidate inadmissible, because the latch is checked at every step. -/
theorem periods_unavailable_iff_any_breach (fb : List Booking)
    (la : List ListingAvailability) (nb : NewBooking) (m : Int) :
    (getAvailabilityPeriods fb la (some nb) (some m)).isAvailable = false ↔
      ∃ k : Nat, k < (sortListBy (fun s => s.date)
          (buildDateSteps fb la (some nb))).length ∧
        m < sumDeltasTake (sortListBy (fun s => s.date)
          (buildDateSteps fb la (some nb))) (k + 1) := by
  have hav : (getAvailabilityPeriods fb la (some nb) (some m)).isAvailable
      = noBreachList true (some m) (sortListBy (fun s => s.date)
        (buildDateSteps fb la (some nb))) 0 := by
    show (sweepPeriods (some nb).isSome (some m)
      (sortListBy (fun s => s.date) (buildDateSteps fb la (some nb)))).2 = _
    rw [sweepPeriods_avail]
    rfl
  rw [hav, Bool.eq_false_iff, Ne,
    noBreachList_true_iff m (sortListBy (fun s => s.date)
      (buildDateSteps fb la (some nb))) 0]
  push_neg
  constructor
  · rintro ⟨k, hk, hbr⟩
    exact ⟨k, hk, by omega⟩
  · rintro ⟨k, hk, hbr⟩
    exact ⟨k, hk, by omega⟩

/-- C1 counterexample: ceiling 1, one existing booking of quantity 2 over
times 0 to 10, candidate over times 100 to 110 with quantity 1.  The code
reports unavailable although every timeline point dated at or after the
candidate start stays at or below the ceiling: the only breach lies strictly
before the candidate presence, so the claimed equivalence fails. -/
theorem periods_prior_breach_cex :
    (getAvailabilityPeriods [⟨0, 10, 2⟩] [] (some ⟨100, 110, 1⟩)
        (some 1)).isAvailable = false ∧
      ((getAvailabilityPeriods [⟨0, 10, 2⟩] [] (some ⟨100, 110, 1⟩)
          (some 1)).availablePeriods.all
        (fun e => decide (e.date < 100 ∨ e.quantity ≤ 1))) = true := by
  exact ⟨by decide, by decide⟩

/-- C3 (corrected): the capacity check reads the running total after every
single delta of the sorted sweep: the verdict is available iff each
post-delta running total stays at or below maxQuantity, including the
intermediate totals taken mid-way through a group of steps sharing one
timestamp; such an intermediate total can decide the verdict even when the
final accumulated quantity of every timestamp stays within the ceiling. -/
theorem periods_available_iff_every_step_ok (fb : List Booking)
    (la : List ListingAvailability) (nb : NewBooking) (m : Int) :
    (getAvailabilityPeriods fb la (some nb) (some m)).isAvailable = true ↔
      ∀ k : Nat, k < (sortListBy (fun s => s.date)
          (buildDateSteps fb la (some nb))).length →
        sumDeltasTake (sortListBy (fun s => s.date)
          (buildDateSteps fb la (some nb))) (k + 1) ≤ m := by
  have hav : (getAvailabilityPeriods fb la (some nb) (some m)).isAvailable
      = noBreachList true (some m) (sortListBy (fun s => s.date)
        (buildDateSteps fb la (some nb))) 0 := by
    show (sweepPeriods (some nb).isSome (some m)
      (sortListBy (fun s => s.date) (buildDateSteps fb la (some nb)))).2 = _
    rw [sweepPeriods_avail]
    rfl
  rw [hav, noBreachList_true_iff m (sortListBy (fun s => s.date)
    (buildDateSteps fb la (some nb))) 0]
  constructor
  · intro h k hk
    have h2 := h k hk
    omega
  · intro h k hk
    have h2 := h k hk
    omega

/-- C3 counterexample: ceiling 2, a booking of quantity 3 over times 0 to 10,
an available declaration of quantity 3 over the same window, and a candidate
over times 20 to 30 with quantity 1.  Every coalesced timeline entry carries
a final accumulated quantity at most 2, yet the verdict is unavailable: the
intermediate running total 3 reached mid-way through the same-timestamp group
at time 0 tripped the latch, refuting the claimed equivalence with final
accumulated quantities. -/
theorem periods_intermediate_breach_cex :
    (getAvailabilityPeriods [⟨0, 10, 3⟩] [⟨0, 10, true, 3⟩]
        (some ⟨20, 30, 1⟩) (some 2)).isAvailable = false ∧
      ((getAvailabilityPeriods [⟨0, 10, 3⟩] [⟨0, 10, true, 3⟩]
          (some ⟨20, 30, 1⟩) (some 2)).availablePeriods.all
        (fun e => decide (e.quantity ≤ 2))) = true := by
  exact ⟨by decide, by decide⟩

/-- C5 (corrected): the sorted steps sharing an identical timestamp coalesce
into exactly one timeline entry (the entry dates are the distinct step dates,
adjacent duplicates collapsed) whose quantity is the final accumulated total
once every delta dated at or before that timestamp is applied; the surviving
entry carries the tag of the FIRST step of its timestamp group, so a
candidate boundary tag on a later step of the group is discarded.  The last
conjunct ties the swept list to the returned timeline: it is exactly the
availablePeriods list with the anchor dropped. -/
theorem periods_coalescing_spec (fb : List Booking)
    (la : List ListingAvailability) (nb : Option NewBooking) (mq : Option Int) :
    ((sweepPeriods nb.isSome mq (sortListBy (fun s => s.date)
          (buildDateSteps fb la nb))).1.map (fun e => e.date)
        = dedupAdj ((sortListBy (fun s => s.date)
            (buildDateSteps fb la nb)).map (fun s => s.date))) ∧
    (∀ e ∈ (sweepPeriods nb.isSome mq (sortListBy (fun s => s.date)
        (buildDateSteps fb la nb))).1,
      e.quantity = sumDeltasLE (sortListBy (fun s => s.date)
        (buildDateSteps fb la nb)) e.date) ∧
    (∀ e ∈ (sweepPeriods nb.isSome mq (sortListBy (fun s => s.date)
        (buildDateSteps fb la nb))).1,
      ((sortListBy (fun s => s.date) (buildDateSteps fb la nb)).find?
          (fun s => s.date = e.date)).map (fun s => s.newPeriod)
        = some e.newPeriod) ∧
    (getAvailabilityPeriods fb la nb mq).availablePeriods.tail
      = (sweepPeriods nb.isSome mq (sortListBy (fun s => s.date)
          (buildDateSteps fb la nb))).1 := by
  refine ⟨sweepPeriods_map_dates _ _ _,
    sweepPeriods_quantity _ _ _ (sortListBy_sorted _ _),
    sweepPeriods_tags _ _ _ (sortListBy_sorted _ _), ?_⟩
  have hAP : (getAvailabilityPeriods fb la nb mq).availablePeriods
      = (match (sweepPeriods nb.isSome mq
            (sortListBy (fun s => s.date) (buildDateSteps fb la nb))).1 with
         | [] => ([] : List PeriodEntry)
         | first :: rest =>
           { date := first.date - oneDay, quantity := 0, newPeriod := none }
             :: first :: rest) := by
    cases nb <;> rfl
  rw [hAP]
  cases hout : (sweepPeriods nb.isSome mq
      (sortListBy (fun s => s.date) (buildDateSteps fb la nb))).1 <;> rfl

/-- C5 counterexample: a booking over times 100 to 200 and a candidate over
times 100 to 300, each of quantity 1.  The candidate start step shares time
100 with the earlier pushed booking step, so the coalesced entry at 100 keeps
the tag of the first step of the group, which is none: the start tag carried
by the later step of the group is dropped, refuting the claim that the tag
survives regardless of the position of the tagged step. -/
theorem periods_tag_dropped_cex :
    (getAvailabilityPeriods [⟨100, 200, 1⟩] [] (some ⟨100, 300, 1⟩)
        none).availablePeriods
      = [⟨100 - oneDay, 0, none⟩, ⟨100, 2, none⟩, ⟨200, 1, none⟩,
          ⟨300, 0, some "end"⟩] := by
  decide

theorem stepsOfAvailabilities_append (l1 l2 : List ListingAvailability) :
    stepsOfAvailabilities (l1 ++ l2)
      = stepsOfAvailabilities l1 ++ stepsOfAvailabilities l2 := by
  induction l1 with
  | nil => rfl
  | cons la l ih =>
    show availabilitySteps la ++ stepsOfAvailabilities (l ++ l2)
      = (availabilitySteps la ++ stepsOfAvailabilities l) ++ stepsOfAvailabilities l2
    rw [ih, List.append_assoc]

theorem sumDeltasLE_availTrue (s e q t : Int) :
    sumDeltasLE (availabilitySteps (mkAvailTrue s e q)) t
      = (if s ≤ t then -q else 0) + (if e ≤ t then q else 0) := by
  rw [show availabilitySteps (mkAvailTrue s e q)
      = [{ date := s, delta := -1 * q, newPeriod := none },
         { date := e, delta := -1 * -1 * q, newPeriod := none }] from rfl]
  rw [sumDeltasLE_cons, sumDeltasLE_cons, sumDeltasLE_nil]
  split_ifs <;> ring

theorem sorted_head_le {l : List Step} {s0 : Step} {r0 : List Step}
    (h : sortListBy (fun s => s.date) l = s0 :: r0) (x : Int)
    (hx : x ∈ (s0 :: r0).map (fun s => s.date)) : s0.date ≤ x := by
  have hs := sortListBy_sorted (fun s : Step => s.date) l
  rw [h] at hs
  rcases List.mem_map.1 hx with ⟨st, hst, rfl⟩
  cases List.mem_cons.1 hst with
  | inl h2 =>
    subst h2
    exact le_refl _
  | inr h2 => exact List.rel_of_sorted_cons hs st h2

/-- C9: adding an available declaration of quantity q over the window from s
to e lowers the running quantity (the sum of all emitted deltas dated at or
before the instant) by exactly q at every instant inside the window, leaves
it unchanged at every instant at or after the window end, and accordingly
every timeline entry of the run with the declaration that is dated inside
the window shows exactly q less than the running quantity of the run without
it. -/
theorem available_declaration_lowers_window (fb : List Booking)
    (la1 la2 : List ListingAvailability) (nb : Option NewBooking)
    (mq : Option Int) (s e q t : Int) (hse : s ≤ e) :
    (s ≤ t → t < e →
      sumDeltasLE (buildDateSteps fb
          (la1 ++ mkAvailTrue s e q :: la2) nb) t
        = sumDeltasLE (buildDateSteps fb (la1 ++ la2) nb) t - q) ∧
    (e ≤ t →
      sumDeltasLE (buildDateSteps fb
          (la1 ++ mkAvailTrue s e q :: la2) nb) t
        = sumDeltasLE (buildDateSteps fb (la1 ++ la2) nb) t) ∧
    (∀ entry ∈ (getAvailabilityPeriods fb
        (la1 ++ mkAvailTrue s e q :: la2) nb mq).availablePeriods,
      s ≤ entry.date → entry.date < e →
      entry.quantity
        = sumDeltasLE (buildDateSteps fb (la1 ++ la2) nb) entry.date - q) := by
  have hdec : ∀ t2 : Int,
      sumDeltasLE (buildDateSteps fb
          (la1 ++ mkAvailTrue s e q :: la2) nb) t2
        = sumDeltasLE (buildDateSteps fb (la1 ++ la2) nb) t2
          + ((if s ≤ t2 then -q else 0) + (if e ≤ t2 then q else 0)) := by
    intro t2
    unfold buildDateSteps
    rw [stepsOfAvailabilities_append, stepsOfAvailabilities_append]
    simp only [stepsOfAvailabilities, sumDeltasLE_append, sumDeltasLE_availTrue]
    ring
  refine ⟨?_, ?_, ?_⟩
  · intro h1 h2
    rw [hdec t, if_pos h1, if_neg (by omega)]
    ring
  · intro h1
    rw [hdec t, if_pos (by omega), if_pos h1]
    ring
  · intro entry hentry hs1 hs2
    have hAP : (getAvailabilityPeriods fb
        (la1 ++ mkAvailTrue s e q :: la2) nb mq).availablePeriods
        = (match (sweepPeriods nb.isSome mq
              (sortListBy (fun st => st.date) (buildDateSteps fb
                (la1 ++ mkAvailTrue s e q :: la2) nb))).1 with
           | [] => ([] : List PeriodEntry)
           | first :: rest =>
             { date := first.date - oneDay, quantity := 0, newPeriod := none }
               :: first :: rest) := by
      cases nb <;> rfl
    have hsmem : s ∈ (buildDateSteps fb
        (la1 ++ mkAvailTrue s e q :: la2) nb).map (fun st => st.date) := by
      unfold buildDateSteps
      rw [stepsOfAvailabilities_append]
      simp [availabilitySteps, stepsOfAvailabilities, mkAvailTrue]
    have hsmem2 : s ∈ (sortListBy (fun st => st.date) (buildDateSteps fb
        (la1 ++ mkAvailTrue s e q :: la2) nb)).map (fun st => st.date) :=
      (((sortListBy_perm (fun st : Step => st.date) _).map
        (fun st => st.date)).mem_iff).2 hsmem
    rw [hAP] at hentry
    cases hout : (sweepPeriods nb.isSome mq
        (sortListBy (fun st => st.date) (buildDateSteps fb
          (la1 ++ mkAvailTrue s e q :: la2) nb))).1 with
    | nil =>
      rw [hout] at hentry
      simp at hentry
    | cons first rest =>
      rw [hout] at hentry
      cases List.mem_cons.1 hentry with
      | inl h2 =>
        exfalso
        cases hsw : sortListBy (fun st => st.date) (buildDateSteps fb
            (la1 ++ mkAvailTrue s e q :: la2) nb) with
        | nil =>
          rw [hsw] at hsmem2
          simp at hsmem2
        | cons s0 r0 =>
          have hmap := sweepPeriods_map_dates nb.isSome mq (s0 :: r0)
          rcases dedupAdj_cons_shape s0.date (r0.map (fun x => x.date)) with ⟨tl, htl⟩
          rw [List.map_cons, htl] at hmap
          rw [hsw] at hout
          rw [hout, List.map_cons] at hmap
          have hfd : first.date = s0.date := by
            have h3 := hmap
            simp only [List.cons.injEq] at h3
            exact h3.1
          have hs0 : s0.date ≤ s := sorted_head_le hsw s (hsw ▸ hsmem2)
          subst h2
          have hs1b : s ≤ first.date - oneDay := hs1
          simp only [oneDay] at hs1b
          omega
      | inr h2 =>
        have hq := sweepPeriods_quantity nb.isSome mq _
          (sortListBy_sorted _ _) entry (by rw [hout]; exact h2)
        rw [sumDeltasLE_perm (sortListBy_perm (fun st : Step => st.date) _)] at hq
        rw [hq, hdec entry.date, if_pos hs1, if_neg (by omega)]
        ring

/-- Witness for the C9 theorem at a concrete input: with no other input, the
available declaration of quantity 1 over the window 0 to 10 lowers the
running quantity at instant 5 by exactly 1 relative to the run without it. -/
theorem available_declaration_lowers_window_witness :
    sumDeltasLE (buildDateSteps [] ([] ++ mkAvailTrue 0 10 1 :: []) none) 5
      = sumDeltasLE (buildDateSteps [] ([] ++ []) none) 5 - 1 :=
  (available_declaration_lowers_window [] [] [] none none 0 10 1 5
    (by decide)).1 (by decide) (by decide)

end BookingAvailability
